import Mathlib

/-
Verification of the Ledger Balance & Settlement Engine of the ExpenseTracker
backend (src/backend/main.py).

The embedding models money as exact rationals (the Python code uses binary
floats; the algorithms are modelled over ℚ, the ideal arithmetic the spec
prescribes).  Database rows become list elements; SQLAlchemy queries become
list filters in insertion order; `db.add` followed by `db.commit` becomes an
append to the corresponding list.  Display names and timestamps are omitted:
no claim mentions them.
-/

/-- Rounding half-to-even to two decimal places, the behaviour of Python's
builtin `round(x, 2)` on exact decimal inputs (`round` uses banker's
rounding).  Used by `calculate_group_balances` at lines 439-442 and 485. -/
def round2 (q : ℚ) : ℚ :=
  (if 100 * q - (⌊100 * q⌋ : ℚ) < 1/2 then (⌊100 * q⌋ : ℚ)
   else if 1/2 < 100 * q - (⌊100 * q⌋ : ℚ) then ((⌊100 * q⌋ + 1 : ℤ) : ℚ)
   else if ⌊100 * q⌋ % 2 = 0 then (⌊100 * q⌋ : ℚ)
   else ((⌊100 * q⌋ + 1 : ℤ) : ℚ)) / 100

/-- A rational that is a whole number of cents (two-decimal currency value). -/
def centMult (q : ℚ) : Prop := ∃ z : ℤ, q = (z : ℚ) / 100

/-! Data model of the persistence layer, as consumed by `add_expense`
(src/backend/main.py lines 291-355).  Rows are kept in insertion order. -/

/-- Split policy enum `SplitType` (main.py lines 20-22). -/
inductive SplitKind
  | equal
  | percentage
  deriving DecidableEq, Repr

/-- One element of `ExpenseCreate.splits` (Pydantic model, lines 152-154):
a target user and an optional percentage. -/
structure SplitReq where
  userId : Nat
  percentage : Option ℚ
  deriving DecidableEq, Repr

/-- The `ExpenseCreate` request body (lines 156-161).  Pydantic enforces
`amount > 0` (`Field(..., gt=0)`) before `add_expense` runs; theorems carry
that as a hypothesis where it matters. -/
structure ExpenseReq where
  description : Nat
  amount : ℚ
  paidBy : Nat
  splitKind : SplitKind
  splits : List SplitReq
  deriving DecidableEq, Repr

/-- A persisted `Expense` row (lines 60-69, columns relevant to the claims). -/
structure ExpenseRow where
  id : Nat
  amount : ℚ
  groupId : Nat
  paidBy : Nat
  splitKind : SplitKind
  deriving DecidableEq, Repr

/-- A persisted `ExpenseSplit` row (lines 76-83). -/
structure SplitRow where
  expenseId : Nat
  userId : Nat
  amount : ℚ
  percentage : Option ℚ
  deriving DecidableEq, Repr

/-- The database state visible to `add_expense`: user ids, group ids,
`group_members` rows as (groupId, userId) pairs, and the expense/split
tables. -/
structure DB where
  users : List Nat
  groups : List Nat
  memberships : List (Nat × Nat)
  expenses : List ExpenseRow
  splitRows : List SplitRow
  deriving DecidableEq, Repr

/-- Outcomes of `add_expense`: the three `HTTPException` paths and the
unhandled `TypeError` that `split_data.percentage / 100` raises when
`percentage` is `None` (line 344). -/
inductive ApiError
  | groupNotFound
  | paidByNotInGroup
  | percentagesNot100
  | typeError
  deriving DecidableEq, Repr

/-- The `GroupMember` rows of one group, in insertion order
(`db.query(GroupMember).filter(GroupMember.group_id == group_id).all()`,
line 327). -/
def membersOf (db : DB) (gid : Nat) : List (Nat × Nat) :=
  db.memberships.filter (fun p => p.1 == gid)

/-- The payer-membership check of lines 299-304: a `User` row joined with a
`GroupMember` row of this group. -/
def paidByInGroup (db : DB) (gid : Nat) (uid : Nat) : Bool :=
  db.users.contains uid && db.memberships.contains (gid, uid)

/-- Percentage total of line 308: `sum(split.percentage or 0 for split in
expense.splits)`; a missing (or zero) percentage contributes 0. -/
def totalPercentage (splits : List SplitReq) : ℚ :=
  (splits.map (fun s => s.percentage.getD 0)).sum

/-- Percentage split rows of lines 343-352, processed in request order.
Returns `none` as soon as a split has no percentage: there Python raises
`TypeError` on `split_data.percentage / 100`, aborting the loop. -/
def mkPctRows (eid : Nat) (amount : ℚ) : List SplitReq → Option (List SplitRow)
  | [] => some []
  | s :: rest =>
    match s.percentage with
    | none => none
    | some p =>
      match mkPctRows eid amount rest with
      | none => none
      | some rows => some (⟨eid, s.userId, amount * (p / 100), some p⟩ :: rows)

/-- Shallow embedding of `add_expense` (lines 291-355).  Returns the HTTP
result together with the database state after the call.  Control flow of the
source: validate group, validate payer membership, validate percentage total
(percentage policy only), then commit the `Expense` row (line 321), then
build and commit the split rows.  The expense id models the autoincrement
primary key.  On the `TypeError` path the `Expense` commit has already
happened but the split rows were only `db.add`ed, never committed, so the
resulting state holds the expense and none of its splits. -/
def addExpense (db : DB) (gid : Nat) (req : ExpenseReq) :
    Except ApiError ExpenseRow × DB :=
  if ¬ db.groups.contains gid then (.error .groupNotFound, db)
  else if ¬ paidByInGroup db gid req.paidBy then (.error .paidByNotInGroup, db)
  else if req.splitKind = .percentage ∧ |totalPercentage req.splits - 100| > 1/100 then
    (.error .percentagesNot100, db)
  else
    let eid := db.expenses.length
    let row : ExpenseRow := ⟨eid, req.amount, gid, req.paidBy, req.splitKind⟩
    let db1 : DB := { db with expenses := db.expenses ++ [row] }
    match req.splitKind with
    | .equal =>
      let mems := membersOf db gid
      let splitAmt := req.amount / (mems.length : ℚ)
      let rows := mems.map (fun m => (⟨eid, m.2, splitAmt, none⟩ : SplitRow))
      (.ok row, { db1 with splitRows := db1.splitRows ++ rows })
    | .percentage =>
      match mkPctRows eid req.amount req.splits with
      | none => (.error .typeError, db1)
      | some rows => (.ok row, { db1 with splitRows := db1.splitRows ++ rows })

/-! Settlement engine: `calculate_group_balances` (main.py lines 398-490).
The engine consumes a snapshot of one group: the member ids (join order of
lines 422), the expense facts as (payer, amount) pairs (lines 402, 410-413)
and the split facts as (user, amount) pairs (lines 405, 416-419). -/

/-- Total a user paid, the `user_paid` defaultdict of lines 410-413. -/
def userPaid (expenses : List (Nat × ℚ)) (u : Nat) : ℚ :=
  ((expenses.filter (fun e => e.1 == u)).map Prod.snd).sum

/-- Total a user owes, the `user_owes` defaultdict of lines 416-419. -/
def userOwes (shares : List (Nat × ℚ)) (u : Nat) : ℚ :=
  ((shares.filter (fun s => s.1 == u)).map Prod.snd).sum

/-- Net balance `paid - owes` of lines 427-431 (unrounded). -/
def netOf (expenses shares : List (Nat × ℚ)) (u : Nat) : ℚ :=
  userPaid expenses u - userOwes shares u

/-- The `user_net_balances` mapping in member order, paired with the rounded
value used by the partition of lines 438-442. -/
def entriesOf (members : List Nat) (expenses shares : List (Nat × ℚ)) :
    List (Nat × ℚ) :=
  members.map (fun u => (u, round2 (netOf expenses shares u)))

/-- The `debtors` queue (lines 441-442): members whose rounded net is
negative, in member order, carrying the rounded net. -/
def debtorsOf (members : List Nat) (expenses shares : List (Nat × ℚ)) :
    List (Nat × ℚ) :=
  (entriesOf members expenses shares).filter (fun p => decide (p.2 < 0))

/-- The `creditors` queue (lines 439-440): members whose rounded net is
positive, in member order, carrying the rounded net. -/
def creditorsOf (members : List Nat) (expenses shares : List (Nat × ℚ)) :
    List (Nat × ℚ) :=
  (entriesOf members expenses shares).filter (fun p => decide (0 < p.2))

/-- The greedy two-cursor settlement loop of lines 451-474, recast as
recursion on the unprocessed tails of the two queues.  Each iteration emits
`(debtor, creditor, settle_amt)` with `settle_amt = min(-debtor_amt,
creditor_amt)` (line 457), updates the two outstanding amounts (lines
464-465), and advances a cursor whenever the corresponding remainder is
below the `0.01` epsilon (lines 471-474). -/
def settleLoop : List (Nat × ℚ) → List (Nat × ℚ) → List (Nat × Nat × ℚ)
  | [], _ => []
  | _ :: _, [] => []
  | (did, damt) :: ds, (cid, camt) :: cs =>
    (did, cid, min (-damt) camt) ::
      settleLoop
        (if |damt + min (-damt) camt| < 1/100 then ds
         else (did, damt + min (-damt) camt) :: ds)
        (if |camt - min (-damt) camt| < 1/100 then cs
         else (cid, camt - min (-damt) camt) :: cs)
termination_by ds cs => ds.length + cs.length
decreasing_by
  rcases le_total (-damt) camt with h | h
  · have hd : |damt + min (-damt) camt| < 1/100 := by
      rw [min_eq_left h]
      norm_num
    rw [dif_pos hd]
    split_ifs <;> simp_arith
  · have hc : |camt - min (-damt) camt| < 1/100 := by
      rw [min_eq_right h]
      norm_num
    rw [dif_pos hc]
    split_ifs <;> simp_arith

/-- The settlement transfers the engine emits for a snapshot: the greedy
loop run on the debtor and creditor queues. -/
def calcSettlements (members : List Nat) (expenses shares : List (Nat × ℚ)) :
    List (Nat × Nat × ℚ) :=
  settleLoop (debtorsOf members expenses shares)
    (creditorsOf members expenses shares)

/-- Amount a user pays out across a transfer list (their `owes` entries,
line 460). -/
def paidTotal (u : Nat) (ts : List (Nat × Nat × ℚ)) : ℚ :=
  ((ts.filter (fun t => t.1 == u)).map (fun t => t.2.2)).sum

/-- Amount a user receives across a transfer list (their `owed_by` entries,
line 461). -/
def recvTotal (u : Nat) (ts : List (Nat × Nat × ℚ)) : ℚ :=
  ((ts.filter (fun t => t.2.1 == u)).map (fun t => t.2.2)).sum

/-- One entry of the response of lines 477-487: user id, the `owes` map as
(creditor, amount) pairs in emission order, the `owed_by` map likewise, and
the rounded net balance. -/
structure BalanceEntry where
  userId : Nat
  owes : List (Nat × ℚ)
  owedBy : List (Nat × ℚ)
  netBalance : ℚ
  deriving DecidableEq, Repr

/-- The balance list `calculate_group_balances` returns (lines 477-490):
one entry per group member in member order.  The per-member `owes` /
`owed_by` dicts are recovered by filtering the transfer list; the loop never
emits the same (debtor, creditor) pair twice (a cursor advances every
iteration), so dict insertion equals this filtered list. -/
def calcBalances (members : List Nat) (expenses shares : List (Nat × ℚ)) :
    List BalanceEntry :=
  members.map (fun u =>
    ⟨u,
     ((calcSettlements members expenses shares).filter
        (fun t => t.1 == u)).map (fun t => (t.2.1, t.2.2)),
     ((calcSettlements members expenses shares).filter
        (fun t => t.2.1 == u)).map (fun t => (t.1, t.2.2)),
     round2 (netOf expenses shares u)⟩)

/-! Derived definitions used to state the claims. -/

/-- Sum of the amounts in an id-amount list. -/
def amtSum (l : List (Nat × ℚ)) : ℚ := (l.map Prod.snd).sum

/-- One expense together with its shares, the per-expense grouping the
`ExpenseSplit.expense_id` foreign key records: the payer, the amount, and
the (user, amount) shares of this expense. -/
structure ExpenseFact where
  paidBy : Nat
  amount : ℚ
  shares : List (Nat × ℚ)
  deriving DecidableEq, Repr

/-- The (payer, amount) list the engine reads from the `expenses` table. -/
def expensePairs (facts : List ExpenseFact) : List (Nat × ℚ) :=
  facts.map (fun e => (e.paidBy, e.amount))

/-- The (user, amount) list the engine reads from the `expense_splits`
table, all expenses concatenated in order. -/
def sharePairs (facts : List ExpenseFact) : List (Nat × ℚ) :=
  (facts.map (fun e => e.shares)).flatten

/-- Sum of the share amounts of one expense. -/
def shareSum (e : ExpenseFact) : ℚ := amtSum e.shares

theorem centMult_round2 (q : ℚ) : centMult (round2 q) := by
  unfold round2
  split_ifs <;> exact ⟨_, rfl⟩

theorem centMult.add {a b : ℚ} (ha : centMult a) (hb : centMult b) :
    centMult (a + b) := by
  obtain ⟨x, hx⟩ := ha; obtain ⟨y, hy⟩ := hb
  exact ⟨x + y, by push_cast [hx, hy]; ring⟩

theorem centMult.neg {a : ℚ} (ha : centMult a) : centMult (-a) := by
  obtain ⟨x, hx⟩ := ha
  exact ⟨-x, by push_cast [hx]; ring⟩

theorem centMult.sub {a b : ℚ} (ha : centMult a) (hb : centMult b) :
    centMult (a - b) := by
  simpa [sub_eq_add_neg] using ha.add hb.neg

theorem centMult.min {a b : ℚ} (ha : centMult a) (hb : centMult b) :
    centMult (min a b) := by
  rcases le_total a b with h | h
  · simpa [min_eq_left h] using ha
  · simpa [min_eq_right h] using hb

theorem centMult.zero : centMult 0 := ⟨0, by norm_num⟩

/-- A positive whole number of cents is at least one cent. -/
theorem centMult_pos_ge {q : ℚ} (hc : centMult q) (hq : 0 < q) : 1/100 ≤ q := by
  obtain ⟨z, hz⟩ := hc
  subst hz
  have hz1 : (1 : ℤ) ≤ z := by
    by_contra h
    push_neg at h
    have hz0 : z ≤ 0 := by omega
    have : (z : ℚ) ≤ 0 := by exact_mod_cast hz0
    nlinarith
  have : (1 : ℚ) ≤ (z : ℚ) := by exact_mod_cast hz1
  linarith

/-- A negative whole number of cents is at most minus one cent. -/
theorem centMult_neg_le {q : ℚ} (hc : centMult q) (hq : q < 0) : q ≤ -(1/100) := by
  have := centMult_pos_ge hc.neg (by linarith)
  linarith

/-- A whole number of cents of absolute value below one cent is zero. -/
theorem centMult_small_eq_zero {q : ℚ} (hc : centMult q) (hq : |q| < 1/100) :
    q = 0 := by
  rcases lt_trichotomy q 0 with h | h | h
  · have := centMult_neg_le hc h
    have habs : |q| = -q := abs_of_neg h
    linarith [habs ▸ hq]
  · exact h
  · have := centMult_pos_ge hc h
    have habs : |q| = q := abs_of_pos h
    linarith [habs ▸ hq]

/-- Half-to-even rounding moves a value by at most half a cent. -/
theorem abs_round2_sub_le (q : ℚ) : |round2 q - q| ≤ 1/200 := by
  unfold round2
  have h0 : (0 : ℚ) ≤ 100 * q - (⌊100 * q⌋ : ℚ) := by
    have := Int.floor_le (100 * q); linarith
  have h1 : 100 * q - (⌊100 * q⌋ : ℚ) < 1 := by
    have := Int.lt_floor_add_one (100 * q); linarith
  split_ifs with hlt hgt heven <;>
  · rw [abs_le]
    constructor <;> · push_cast; nlinarith


/-! Basic facts about the greedy loop. -/

theorem settleLoop_nil_left (cs : List (Nat × ℚ)) : settleLoop [] cs = [] := by
  rw [settleLoop]

theorem settleLoop_nil_right (d : Nat × ℚ) (ds : List (Nat × ℚ)) :
    settleLoop (d :: ds) [] = [] := by
  rw [settleLoop]

theorem settleLoop_cons (did cid : Nat) (damt camt : ℚ) (ds cs : List (Nat × ℚ)) :
    settleLoop ((did, damt) :: ds) ((cid, camt) :: cs) =
      (did, cid, min (-damt) camt) ::
        settleLoop
          (if |damt + min (-damt) camt| < 1/100 then ds
           else (did, damt + min (-damt) camt) :: ds)
          (if |camt - min (-damt) camt| < 1/100 then cs
           else (cid, camt - min (-damt) camt) :: cs) := by
  rw [settleLoop]

theorem paidTotal_nil (u : Nat) : paidTotal u [] = 0 := rfl

theorem recvTotal_nil (u : Nat) : recvTotal u [] = 0 := rfl

theorem paidTotal_cons (u : Nat) (t : Nat × Nat × ℚ) (ts : List (Nat × Nat × ℚ)) :
    paidTotal u (t :: ts) = (if t.1 = u then t.2.2 else 0) + paidTotal u ts := by
  by_cases h : t.1 = u <;> simp [paidTotal, List.filter_cons, h]

theorem recvTotal_cons (u : Nat) (t : Nat × Nat × ℚ) (ts : List (Nat × Nat × ℚ)) :
    recvTotal u (t :: ts) = (if t.2.1 = u then t.2.2 else 0) + recvTotal u ts := by
  by_cases h : t.2.1 = u <;> simp [recvTotal, List.filter_cons, h]

theorem paidTotal_eq_zero {u : Nat} {ts : List (Nat × Nat × ℚ)}
    (h : ∀ t ∈ ts, t.1 ≠ u) : paidTotal u ts = 0 := by
  induction ts with
  | nil => rfl
  | cons t ts ih =>
    rw [paidTotal_cons, if_neg (h t (by simp)), ih (fun x hx => h x (by simp [hx]))]
    ring

theorem recvTotal_eq_zero {u : Nat} {ts : List (Nat × Nat × ℚ)}
    (h : ∀ t ∈ ts, t.2.1 ≠ u) : recvTotal u ts = 0 := by
  induction ts with
  | nil => rfl
  | cons t ts ih =>
    rw [recvTotal_cons, if_neg (h t (by simp)), ih (fun x hx => h x (by simp [hx]))]
    ring

/-- Every transfer the loop emits names a debtor from the debtor queue and a
creditor from the creditor queue. -/
theorem settleLoop_mem_ids (ds cs : List (Nat × ℚ)) :
    ∀ t ∈ settleLoop ds cs, t.1 ∈ ds.map Prod.fst ∧ t.2.1 ∈ cs.map Prod.fst := by
  induction ds, cs using settleLoop.induct with
  | case1 cs => simp [settleLoop_nil_left]
  | case2 d ds => simp [settleLoop_nil_right]
  | case3 did damt ds cid camt cs ih =>
    intro t ht
    rw [settleLoop_cons] at ht
    rcases List.mem_cons.mp ht with h | h
    · subst h; simp
    · have := ih t (by simpa using h)
      constructor
      · rcases this with ⟨h1, _⟩
        split_ifs at h1 with hc
        · simp [h1]
        · simpa using Or.imp_right (fun hh => hh) (by simpa using h1)
      · rcases this with ⟨_, h2⟩
        split_ifs at h2 with hc
        · simp [h2]
        · simpa using Or.imp_right (fun hh => hh) (by simpa using h2)

/-- Each iteration of the loop exhausts at least one side: the transferred
`min(-d, c)` zeroes the debtor remainder or the creditor remainder. -/
theorem min_side_zero (damt camt : ℚ) :
    damt + min (-damt) camt = 0 ∨ camt - min (-damt) camt = 0 := by
  rcases le_total (-damt) camt with h | h
  · left; rw [min_eq_left h]; ring
  · right; rw [min_eq_right h]; ring

/-- Iteration bound of the greedy loop: on non-empty queues it emits fewer
transfers than the total number of queue entries. -/
theorem settleLoop_length_bound (n : Nat) : ∀ (ds cs : List (Nat × ℚ)),
    ds.length + cs.length ≤ n → ds ≠ [] → cs ≠ [] →
    (settleLoop ds cs).length + 1 ≤ ds.length + cs.length := by
  induction n with
  | zero =>
    intro ds cs hn hd hc
    cases ds with
    | nil => exact absurd rfl hd
    | cons d ds => simp at hn
  | succ n ih =>
    intro ds cs hn hd hc
    match ds, cs with
    | [], _ => exact absurd rfl hd
    | _ :: _, [] => exact absurd rfl hc
    | (did, damt) :: ds, (cid, camt) :: cs =>
      rw [settleLoop_cons]
      simp only [List.length_cons] at hn ⊢
      have hgoal : ∀ T : List (Nat × Nat × ℚ), T.length ≤ ds.length + cs.length →
          (T.length + 1) + 1 ≤ ds.length + 1 + (cs.length + 1) := by
        intro T hT; omega
      split_ifs with hA hB hB
      · apply hgoal
        cases ds with
        | nil => simp [settleLoop_nil_left]
        | cons d ds' =>
          cases cs with
          | nil => simp [settleLoop_nil_right]
          | cons c cs' =>
            have h := ih (d :: ds') (c :: cs') (by simp only [List.length_cons] at hn ⊢; omega)
              (by simp) (by simp)
            simp only [List.length_cons] at h ⊢
            omega
      · apply hgoal
        cases ds with
        | nil => simp [settleLoop_nil_left]
        | cons d ds' =>
          have h := ih (d :: ds') ((cid, camt - min (-damt) camt) :: cs)
            (by simp only [List.length_cons] at hn ⊢; omega) (by simp) (by simp)
          simp only [List.length_cons] at h ⊢
          omega
      · apply hgoal
        cases cs with
        | nil => simp [settleLoop_nil_right]
        | cons c cs' =>
          have h := ih ((did, damt + min (-damt) camt) :: ds) (c :: cs')
            (by simp only [List.length_cons] at hn ⊢; omega) (by simp) (by simp)
          simp only [List.length_cons] at h ⊢
          omega
      · exfalso
        rcases min_side_zero damt camt with h0 | h0
        · exact hA (by rw [h0]; norm_num)
        · exact hB (by rw [h0]; norm_num)

theorem amtSum_nil : amtSum [] = 0 := rfl

theorem amtSum_cons (p : Nat × ℚ) (l : List (Nat × ℚ)) :
    amtSum (p :: l) = p.2 + amtSum l := by
  simp [amtSum]

theorem amtSum_nonneg {l : List (Nat × ℚ)} (h : ∀ p ∈ l, 0 ≤ p.2) :
    0 ≤ amtSum l := by
  induction l with
  | nil => simp [amtSum_nil]
  | cons p l ih =>
    rw [amtSum_cons]
    have := h p (List.mem_cons_self _ _)
    have := ih (fun q hq => h q (List.mem_cons_of_mem _ hq))
    linarith

theorem amtSum_nonpos {l : List (Nat × ℚ)} (h : ∀ p ∈ l, p.2 ≤ 0) :
    amtSum l ≤ 0 := by
  induction l with
  | nil => simp [amtSum_nil]
  | cons p l ih =>
    rw [amtSum_cons]
    have := h p (List.mem_cons_self _ _)
    have := ih (fun q hq => h q (List.mem_cons_of_mem _ hq))
    linarith

theorem mem_le_amtSum {l : List (Nat × ℚ)} (h : ∀ p ∈ l, 0 ≤ p.2)
    {p : Nat × ℚ} (hp : p ∈ l) : p.2 ≤ amtSum l := by
  induction l with
  | nil => cases hp
  | cons q l ih =>
    rw [amtSum_cons]
    rcases List.mem_cons.mp hp with rfl | hp
    · have := amtSum_nonneg (fun r hr => h r (List.mem_cons_of_mem _ hr))
      linarith
    · have hq := h q (List.mem_cons_self _ _)
      have := ih (fun r hr => h r (List.mem_cons_of_mem _ hr)) hp
      linarith

theorem amtSum_le_mem {l : List (Nat × ℚ)} (h : ∀ p ∈ l, p.2 ≤ 0)
    {p : Nat × ℚ} (hp : p ∈ l) : amtSum l ≤ p.2 := by
  induction l with
  | nil => cases hp
  | cons q l ih =>
    rw [amtSum_cons]
    rcases List.mem_cons.mp hp with rfl | hp
    · have := amtSum_nonpos (fun r hr => h r (List.mem_cons_of_mem _ hr))
      linarith
    · have hq := h q (List.mem_cons_self _ _)
      have := ih (fun r hr => h r (List.mem_cons_of_mem _ hr)) hp
      linarith

/-- Core invariant of the greedy loop: on queues of strictly-signed whole-cent
amounts with pairwise distinct ids whose grand total is within one cent of
zero, the emitted transfers drive every entry's remaining amount to within
one cent of zero. -/
theorem settleLoop_settles (n : Nat) : ∀ (ds cs : List (Nat × ℚ)),
    ds.length + cs.length ≤ n →
    (∀ p ∈ ds, p.2 < 0 ∧ centMult p.2) →
    (∀ p ∈ cs, 0 < p.2 ∧ centMult p.2) →
    (ds.map Prod.fst ++ cs.map Prod.fst).Nodup →
    |amtSum ds + amtSum cs| ≤ 1/100 →
    (∀ p ∈ ds, |p.2 + paidTotal p.1 (settleLoop ds cs)| ≤ 1/100) ∧
    (∀ p ∈ cs, |p.2 - recvTotal p.1 (settleLoop ds cs)| ≤ 1/100) := by
  induction n with
  | zero =>
    intro ds cs hn hd hc hnd hsum
    match ds, cs with
    | [], [] => exact ⟨by simp, by simp⟩
    | [], _ :: _ => simp at hn
    | _ :: _, _ => simp at hn
  | succ n ih =>
    intro ds cs hn hd hc hnd hsum
    match ds, cs with
    | [], cs =>
      rw [settleLoop_nil_left]
      refine ⟨by simp, ?_⟩
      intro p hp
      rw [recvTotal_nil, sub_zero]
      have hpos := (hc p hp).1
      have h1 : p.2 ≤ amtSum cs := mem_le_amtSum (fun q hq => le_of_lt (hc q hq).1) hp
      have h2 : amtSum cs ≤ 1/100 := by
        rw [amtSum_nil, zero_add] at hsum
        linarith [(abs_le.mp hsum).2]
      rw [abs_of_pos hpos]
      linarith
    | d :: ds, [] =>
      rw [settleLoop_nil_right]
      refine ⟨?_, by simp⟩
      intro p hp
      rw [paidTotal_nil, add_zero]
      have hneg := (hd p hp).1
      have h1 : amtSum (d :: ds) ≤ p.2 := amtSum_le_mem (fun q hq => le_of_lt (hd q hq).1) hp
      have h2 : -(1/100) ≤ amtSum (d :: ds) := by
        rw [amtSum_nil, add_zero] at hsum
        linarith [(abs_le.mp hsum).1]
      rw [abs_of_neg hneg]
      linarith
    | (did, damt) :: ds, (cid, camt) :: cs =>
      obtain ⟨hd0, hdc⟩ := hd (did, damt) (List.mem_cons_self _ _)
      obtain ⟨hc0, hcc⟩ := hc (cid, camt) (List.mem_cons_self _ _)
      have hdtail : ∀ p ∈ ds, p.2 < 0 ∧ centMult p.2 :=
        fun p hp => hd p (List.mem_cons_of_mem _ hp)
      have hctail : ∀ p ∈ cs, 0 < p.2 ∧ centMult p.2 :=
        fun p hp => hc p (List.mem_cons_of_mem _ hp)
      simp only [List.map_cons] at hnd
      rw [List.cons_append, List.nodup_cons] at hnd
      obtain ⟨hdidnot, hnd2⟩ := hnd
      have h_did_A : did ∉ ds.map Prod.fst :=
        fun h => hdidnot (List.mem_append.mpr (Or.inl h))
      have h_did_B : did ∉ cs.map Prod.fst :=
        fun h => hdidnot (List.mem_append.mpr (Or.inr (List.mem_cons_of_mem _ h)))
      obtain ⟨hndA, hndcB, hdisj⟩ := List.nodup_append.mp hnd2
      obtain ⟨h_cid_B, hndB⟩ := List.nodup_cons.mp hndcB
      have h_cid_A : cid ∉ ds.map Prod.fst :=
        fun h => hdisj h (List.mem_cons_self _ _)
      have hnd_AB : (ds.map Prod.fst ++ cs.map Prod.fst).Nodup :=
        List.nodup_append.mpr ⟨hndA, hndB, fun a ha hb => hdisj ha (List.mem_cons_of_mem _ hb)⟩
      simp only [amtSum_cons] at hsum
      simp only [List.length_cons] at hn
      rw [settleLoop_cons]
      have hscm : centMult (min (-damt) camt) := hdc.neg.min hcc
      rcases le_total (-damt) camt with hle | hle
      · -- the debtor's side is exhausted first
        have hs : min (-damt) camt = -damt := min_eq_left hle
        have hAcond : |damt + min (-damt) camt| < 1/100 := by rw [hs]; norm_num
        rw [if_pos hAcond]
        by_cases hB : |camt - min (-damt) camt| < 1/100
        · rw [if_pos hB]
          have hc2 : camt - min (-damt) camt = 0 :=
            centMult_small_eq_zero (hcc.sub hscm) hB
          have hdc2 : damt + camt = 0 := by rw [hs] at hc2; linarith
          obtain ⟨IH1, IH2⟩ := ih ds cs (by omega) hdtail hctail hnd_AB
            (by
              have heq : amtSum ds + amtSum cs
                  = damt + amtSum ds + (camt + amtSum cs) := by linarith
              rw [heq]; exact hsum)
          constructor
          · intro p hp
            rcases List.mem_cons.mp hp with rfl | hp
            · rw [paidTotal_cons, if_pos rfl]
              have hz : paidTotal did (settleLoop ds cs) = 0 :=
                paidTotal_eq_zero
                  (fun t ht heq => h_did_A (heq ▸ (settleLoop_mem_ids ds cs t ht).1))
              rw [hz, hs]
              have heq : damt + (-damt + 0) = 0 := by ring
              rw [heq]
              norm_num
            · rw [paidTotal_cons]
              have hne : ((did, cid, min (-damt) camt) : Nat × Nat × ℚ).1 ≠ p.1 :=
                fun h => h_did_A (by rw [show did = p.1 from h]; exact List.mem_map_of_mem Prod.fst hp)
              rw [if_neg hne, zero_add]
              exact IH1 p hp
          · intro p hp
            rcases List.mem_cons.mp hp with rfl | hp
            · rw [recvTotal_cons, if_pos rfl]
              have hz : recvTotal cid (settleLoop ds cs) = 0 :=
                recvTotal_eq_zero
                  (fun t ht heq => h_cid_B (heq ▸ (settleLoop_mem_ids ds cs t ht).2))
              rw [hz]
              have heq : camt - (min (-damt) camt + 0) = 0 := by
                rw [hs] at hc2 ⊢; linarith
              rw [heq]
              norm_num
            · rw [recvTotal_cons]
              have hne : ((did, cid, min (-damt) camt) : Nat × Nat × ℚ).2.1 ≠ p.1 :=
                fun h => h_cid_B (by rw [show cid = p.1 from h]; exact List.mem_map_of_mem Prod.fst hp)
              rw [if_neg hne, zero_add]
              exact IH2 p hp
        · rw [if_neg hB]
          have h0 : 0 ≤ camt - min (-damt) camt := by rw [hs]; linarith
          have hc2pos : 0 < camt - min (-damt) camt := by
            rcases eq_or_lt_of_le h0 with heq | hlt
            · exact absurd (by rw [← heq]; norm_num) hB
            · exact hlt
          obtain ⟨IH1, IH2⟩ := ih ds ((cid, camt - min (-damt) camt) :: cs)
            (by simp only [List.length_cons]; omega)
            hdtail
            (by
              intro p hp
              rcases List.mem_cons.mp hp with rfl | hp
              · exact ⟨hc2pos, hcc.sub hscm⟩
              · exact hctail p hp)
            (by simpa using hnd2)
            (by
              have heq : amtSum ds + amtSum ((cid, camt - min (-damt) camt) :: cs)
                  = damt + amtSum ds + (camt + amtSum cs) := by
                simp only [amtSum_cons]; rw [hs]; ring
              rw [heq]; exact hsum)
          constructor
          · intro p hp
            rcases List.mem_cons.mp hp with rfl | hp
            · rw [paidTotal_cons, if_pos rfl]
              have hz : paidTotal did
                  (settleLoop ds ((cid, camt - min (-damt) camt) :: cs)) = 0 :=
                paidTotal_eq_zero
                  (fun t ht heq => h_did_A (heq ▸ (settleLoop_mem_ids _ _ t ht).1))
              rw [hz, hs]
              have heq : damt + (-damt + 0) = 0 := by ring
              rw [heq]
              norm_num
            · rw [paidTotal_cons]
              have hne : ((did, cid, min (-damt) camt) : Nat × Nat × ℚ).1 ≠ p.1 :=
                fun h => h_did_A (by rw [show did = p.1 from h]; exact List.mem_map_of_mem Prod.fst hp)
              rw [if_neg hne, zero_add]
              exact IH1 p hp
          · intro p hp
            rcases List.mem_cons.mp hp with rfl | hp
            · rw [recvTotal_cons, if_pos rfl]
              have hrec := IH2 (cid, camt - min (-damt) camt) (List.mem_cons_self _ _)
              have heq : camt - (min (-damt) camt
                    + recvTotal cid (settleLoop ds ((cid, camt - min (-damt) camt) :: cs)))
                  = (camt - min (-damt) camt)
                    - recvTotal cid (settleLoop ds ((cid, camt - min (-damt) camt) :: cs)) := by
                ring
              rw [heq]
              exact hrec
            · rw [recvTotal_cons]
              have hne : ((did, cid, min (-damt) camt) : Nat × Nat × ℚ).2.1 ≠ p.1 :=
                fun h => h_cid_B (by rw [show cid = p.1 from h]; exact List.mem_map_of_mem Prod.fst hp)
              rw [if_neg hne, zero_add]
              exact IH2 p (List.mem_cons_of_mem _ hp)
      · -- the creditor's side is exhausted first
        have hs : min (-damt) camt = camt := min_eq_right hle
        have hBcond : |camt - min (-damt) camt| < 1/100 := by rw [hs]; norm_num
        rw [if_pos hBcond]
        by_cases hA : |damt + min (-damt) camt| < 1/100
        · rw [if_pos hA]
          have hd2 : damt + min (-damt) camt = 0 :=
            centMult_small_eq_zero (hdc.add hscm) hA
          have hdc2 : damt + camt = 0 := by rw [hs] at hd2; linarith
          obtain ⟨IH1, IH2⟩ := ih ds cs (by omega) hdtail hctail hnd_AB
            (by
              have heq : amtSum ds + amtSum cs
                  = damt + amtSum ds + (camt + amtSum cs) := by linarith
              rw [heq]; exact hsum)
          constructor
          · intro p hp
            rcases List.mem_cons.mp hp with rfl | hp
            · rw [paidTotal_cons, if_pos rfl]
              have hz : paidTotal did (settleLoop ds cs) = 0 :=
                paidTotal_eq_zero
                  (fun t ht heq => h_did_A (heq ▸ (settleLoop_mem_ids ds cs t ht).1))
              rw [hz]
              have heq : damt + (min (-damt) camt + 0) = 0 := by
                rw [hs] at hd2 ⊢; linarith
              rw [heq]
              norm_num
            · rw [paidTotal_cons]
              have hne : ((did, cid, min (-damt) camt) : Nat × Nat × ℚ).1 ≠ p.1 :=
                fun h => h_did_A (by rw [show did = p.1 from h]; exact List.mem_map_of_mem Prod.fst hp)
              rw [if_neg hne, zero_add]
              exact IH1 p hp
          · intro p hp
            rcases List.mem_cons.mp hp with rfl | hp
            · rw [recvTotal_cons, if_pos rfl]
              have hz : recvTotal cid (settleLoop ds cs) = 0 :=
                recvTotal_eq_zero
                  (fun t ht heq => h_cid_B (heq ▸ (settleLoop_mem_ids ds cs t ht).2))
              rw [hz, hs]
              have heq : camt - (camt + 0) = 0 := by ring
              rw [heq]
              norm_num
            · rw [recvTotal_cons]
              have hne : ((did, cid, min (-damt) camt) : Nat × Nat × ℚ).2.1 ≠ p.1 :=
                fun h => h_cid_B (by rw [show cid = p.1 from h]; exact List.mem_map_of_mem Prod.fst hp)
              rw [if_neg hne, zero_add]
              exact IH2 p hp
        · rw [if_neg hA]
          have h0 : damt + min (-damt) camt ≤ 0 := by rw [hs]; linarith
          have hd2neg : damt + min (-damt) camt < 0 := by
            rcases eq_or_lt_of_le h0 with heq | hlt
            · exact absurd (by rw [heq]; norm_num) hA
            · exact hlt
          obtain ⟨IH1, IH2⟩ := ih ((did, damt + min (-damt) camt) :: ds) cs
            (by simp only [List.length_cons]; omega)
            (by
              intro p hp
              rcases List.mem_cons.mp hp with rfl | hp
              · exact ⟨hd2neg, hdc.add hscm⟩
              · exact hdtail p hp)
            hctail
            (by
              simp only [List.map_cons, List.cons_append]
              exact List.nodup_cons.mpr
                ⟨fun h => (List.mem_append.mp h).elim h_did_A h_did_B, hnd_AB⟩)
            (by
              have heq : amtSum ((did, damt + min (-damt) camt) :: ds) + amtSum cs
                  = damt + amtSum ds + (camt + amtSum cs) := by
                simp only [amtSum_cons]; rw [hs]; ring
              rw [heq]; exact hsum)
          constructor
          · intro p hp
            rcases List.mem_cons.mp hp with rfl | hp
            · rw [paidTotal_cons, if_pos rfl]
              have hrec := IH1 (did, damt + min (-damt) camt) (List.mem_cons_self _ _)
              have heq : damt + (min (-damt) camt
                    + paidTotal did (settleLoop ((did, damt + min (-damt) camt) :: ds) cs))
                  = (damt + min (-damt) camt)
                    + paidTotal did (settleLoop ((did, damt + min (-damt) camt) :: ds) cs) := by
                ring
              rw [heq]
              exact hrec
            · rw [paidTotal_cons]
              have hne : ((did, cid, min (-damt) camt) : Nat × Nat × ℚ).1 ≠ p.1 :=
                fun h => h_did_A (by rw [show did = p.1 from h]; exact List.mem_map_of_mem Prod.fst hp)
              rw [if_neg hne, zero_add]
              exact IH1 p (List.mem_cons_of_mem _ hp)
          · intro p hp
            rcases List.mem_cons.mp hp with rfl | hp
            · rw [recvTotal_cons, if_pos rfl]
              have hz : recvTotal cid
                  (settleLoop ((did, damt + min (-damt) camt) :: ds) cs) = 0 :=
                recvTotal_eq_zero
                  (fun t ht heq => h_cid_B (heq ▸ (settleLoop_mem_ids _ _ t ht).2))
              rw [hz, hs]
              have heq : camt - (camt + 0) = 0 := by ring
              rw [heq]
              norm_num
            · rw [recvTotal_cons]
              have hne : ((did, cid, min (-damt) camt) : Nat × Nat × ℚ).2.1 ≠ p.1 :=
                fun h => h_cid_B (by rw [show cid = p.1 from h]; exact List.mem_map_of_mem Prod.fst hp)
              rw [if_neg hne, zero_add]
              exact IH2 p hp

/-! Bridging facts between the snapshot aggregation and the greedy loop. -/

theorem mem_entriesOf {members : List Nat} {es sh : List (Nat × ℚ)}
    {p : Nat × ℚ} (hp : p ∈ entriesOf members es sh) :
    p.1 ∈ members ∧ p.2 = round2 (netOf es sh p.1) := by
  obtain ⟨u, hu, rfl⟩ := List.mem_map.mp hp
  exact ⟨hu, rfl⟩

theorem debtorsOf_amounts {members : List Nat} {es sh : List (Nat × ℚ)} :
    ∀ p ∈ debtorsOf members es sh, p.2 < 0 ∧ centMult p.2 := by
  intro p hp
  obtain ⟨hent, hneg⟩ := List.mem_filter.mp hp
  refine ⟨by simpa using hneg, ?_⟩
  rw [(mem_entriesOf hent).2]
  exact centMult_round2 _

theorem creditorsOf_amounts {members : List Nat} {es sh : List (Nat × ℚ)} :
    ∀ p ∈ creditorsOf members es sh, 0 < p.2 ∧ centMult p.2 := by
  intro p hp
  obtain ⟨hent, hpos⟩ := List.mem_filter.mp hp
  refine ⟨by simpa using hpos, ?_⟩
  rw [(mem_entriesOf hent).2]
  exact centMult_round2 _

theorem mem_debtor_ids {members : List Nat} {es sh : List (Nat × ℚ)} {u : Nat}
    (hu : u ∈ (debtorsOf members es sh).map Prod.fst) :
    round2 (netOf es sh u) < 0 := by
  obtain ⟨p, hp, rfl⟩ := List.mem_map.mp hu
  obtain ⟨hent, hneg⟩ := List.mem_filter.mp hp
  have := (mem_entriesOf hent).2
  rw [← this]
  simpa using hneg

theorem mem_creditor_ids {members : List Nat} {es sh : List (Nat × ℚ)} {u : Nat}
    (hu : u ∈ (creditorsOf members es sh).map Prod.fst) :
    0 < round2 (netOf es sh u) := by
  obtain ⟨p, hp, rfl⟩ := List.mem_map.mp hu
  obtain ⟨hent, hpos⟩ := List.mem_filter.mp hp
  have := (mem_entriesOf hent).2
  rw [← this]
  simpa using hpos

theorem entriesOf_ids (members : List Nat) (es sh : List (Nat × ℚ)) :
    (entriesOf members es sh).map Prod.fst = members := by
  simp [entriesOf, List.map_map, Function.comp_def]

theorem debtor_ids_sublist (members : List Nat) (es sh : List (Nat × ℚ)) :
    ((debtorsOf members es sh).map Prod.fst).Sublist members := by
  have h2 := (List.filter_sublist (l := entriesOf members es sh)
    (p := fun p => decide (p.2 < 0))).map Prod.fst
  rw [entriesOf_ids] at h2
  exact h2

theorem creditor_ids_sublist (members : List Nat) (es sh : List (Nat × ℚ)) :
    ((creditorsOf members es sh).map Prod.fst).Sublist members := by
  have h2 := (List.filter_sublist (l := entriesOf members es sh)
    (p := fun p => decide (0 < p.2))).map Prod.fst
  rw [entriesOf_ids] at h2
  exact h2

theorem debtor_creditor_ids_nodup {members : List Nat} (es sh : List (Nat × ℚ))
    (hnd : members.Nodup) :
    ((debtorsOf members es sh).map Prod.fst
      ++ (creditorsOf members es sh).map Prod.fst).Nodup := by
  refine List.nodup_append.mpr
    ⟨hnd.sublist (debtor_ids_sublist members es sh),
     hnd.sublist (creditor_ids_sublist members es sh), ?_⟩
  intro u hu hu2
  exact absurd (mem_creditor_ids hu2) (not_lt.mpr (le_of_lt (mem_debtor_ids hu)))

theorem amtSum_filter_split (l : List (Nat × ℚ)) :
    amtSum (l.filter (fun p => decide (p.2 < 0)))
      + amtSum (l.filter (fun p => decide (0 < p.2))) = amtSum l := by
  induction l with
  | nil => simp [amtSum_nil]
  | cons p l ih =>
    rcases lt_trichotomy p.2 0 with h | h | h
    · rw [List.filter_cons_of_pos (by simpa using h),
        List.filter_cons_of_neg (by simp; linarith), amtSum_cons, amtSum_cons]
      linarith
    · rw [List.filter_cons_of_neg (by simp [h]),
        List.filter_cons_of_neg (by simp [h]), amtSum_cons, h]
      linarith
    · rw [List.filter_cons_of_neg (by simp; linarith),
        List.filter_cons_of_pos (by simpa using h), amtSum_cons, amtSum_cons]
      linarith

theorem amtSum_entriesOf (members : List Nat) (es sh : List (Nat × ℚ)) :
    amtSum (entriesOf members es sh)
      = (members.map (fun u => round2 (netOf es sh u))).sum := by
  simp [amtSum, entriesOf, List.map_map, Function.comp_def]

/-- C5: for every input balance snapshot, the number of settlements emitted
by the greedy matching is at most `len(debtors) + len(creditors) - 1` when
both queues are non-empty, and exactly 0 when either queue is empty. -/
theorem settlement_count_bound (members : List Nat) (es sh : List (Nat × ℚ)) :
    ((debtorsOf members es sh = [] ∨ creditorsOf members es sh = []) →
      (calcSettlements members es sh).length = 0) ∧
    (debtorsOf members es sh ≠ [] → creditorsOf members es sh ≠ [] →
      (calcSettlements members es sh).length ≤
        (debtorsOf members es sh).length + (creditorsOf members es sh).length - 1) := by
  constructor
  · rintro (h | h)
    · simp only [calcSettlements, h, settleLoop_nil_left, List.length_nil]
    · simp only [calcSettlements, h]
      cases hd : debtorsOf members es sh with
      | nil => rw [settleLoop_nil_left]; rfl
      | cons d ds => rw [settleLoop_nil_right]; rfl
  · intro h1 h2
    have hb := settleLoop_length_bound
      ((debtorsOf members es sh).length + (creditorsOf members es sh).length)
      (debtorsOf members es sh) (creditorsOf members es sh) le_rfl h1 h2
    simp only [calcSettlements]
    omega

/-- C6: whenever the rounded net balances of a duplicate-free member list
sum to zero within the 0.01 tolerance, applying every emitted settlement
(payments leave the debtor, receipts reach the creditor) leaves every
member's remaining rounded balance within 0.01 of zero. -/
theorem settlements_settle_group (members : List Nat) (es sh : List (Nat × ℚ))
    (hnd : members.Nodup)
    (hsum : |(members.map (fun u => round2 (netOf es sh u))).sum| ≤ 1/100) :
    ∀ u ∈ members,
      |round2 (netOf es sh u)
        + paidTotal u (calcSettlements members es sh)
        - recvTotal u (calcSettlements members es sh)| ≤ 1/100 := by
  intro u hu
  simp only [calcSettlements]
  have hsum2 : |amtSum (debtorsOf members es sh)
      + amtSum (creditorsOf members es sh)| ≤ 1/100 := by
    rw [debtorsOf, creditorsOf, amtSum_filter_split (entriesOf members es sh),
      amtSum_entriesOf]
    exact hsum
  obtain ⟨IH1, IH2⟩ := settleLoop_settles
    ((debtorsOf members es sh).length + (creditorsOf members es sh).length)
    (debtorsOf members es sh) (creditorsOf members es sh) le_rfl
    debtorsOf_amounts creditorsOf_amounts
    (debtor_creditor_ids_nodup es sh hnd) hsum2
  rcases lt_trichotomy (round2 (netOf es sh u)) 0 with h | h | h
  · have hmem : (u, round2 (netOf es sh u)) ∈ debtorsOf members es sh := by
      rw [debtorsOf]
      exact List.mem_filter.mpr ⟨List.mem_map.mpr ⟨u, hu, rfl⟩, by simpa using h⟩
    have hrecv : recvTotal u
        (settleLoop (debtorsOf members es sh) (creditorsOf members es sh)) = 0 :=
      recvTotal_eq_zero (fun t ht heq => by
        have hmm := (settleLoop_mem_ids _ _ t ht).2
        rw [heq] at hmm
        exact absurd (mem_creditor_ids hmm) (by linarith))
    rw [hrecv, sub_zero]
    simpa using IH1 (u, round2 (netOf es sh u)) hmem
  · have hpaid : paidTotal u
        (settleLoop (debtorsOf members es sh) (creditorsOf members es sh)) = 0 :=
      paidTotal_eq_zero (fun t ht heq => by
        have hmm := (settleLoop_mem_ids _ _ t ht).1
        rw [heq] at hmm
        exact absurd (mem_debtor_ids hmm) (by rw [h]; norm_num))
    have hrecv : recvTotal u
        (settleLoop (debtorsOf members es sh) (creditorsOf members es sh)) = 0 :=
      recvTotal_eq_zero (fun t ht heq => by
        have hmm := (settleLoop_mem_ids _ _ t ht).2
        rw [heq] at hmm
        exact absurd (mem_creditor_ids hmm) (by rw [h]; norm_num))
    rw [hpaid, hrecv, h]
    norm_num
  · have hmem : (u, round2 (netOf es sh u)) ∈ creditorsOf members es sh := by
      rw [creditorsOf]
      exact List.mem_filter.mpr ⟨List.mem_map.mpr ⟨u, hu, rfl⟩, by simpa using h⟩
    have hpaid : paidTotal u
        (settleLoop (debtorsOf members es sh) (creditorsOf members es sh)) = 0 :=
      paidTotal_eq_zero (fun t ht heq => by
        have hmm := (settleLoop_mem_ids _ _ t ht).1
        rw [heq] at hmm
        exact absurd (mem_debtor_ids hmm) (by linarith))
    rw [hpaid, add_zero]
    simpa using IH2 (u, round2 (netOf es sh u)) hmem

/-- C7: in one settlement computation no member both pays some transfer and
receives some transfer; the debtor and creditor roles are mutually
exclusive per member. -/
theorem settlement_roles_exclusive (members : List Nat) (es sh : List (Nat × ℚ))
    (u : Nat) (hpay : ∃ t ∈ calcSettlements members es sh, t.1 = u) :
    ∀ t ∈ calcSettlements members es sh, t.2.1 ≠ u := by
  obtain ⟨t0, ht0, h0⟩ := hpay
  intro t ht heq
  simp only [calcSettlements] at ht0 ht
  have h1 := (settleLoop_mem_ids _ _ t0 ht0).1
  have h2 := (settleLoop_mem_ids _ _ t ht).2
  rw [h0] at h1
  rw [heq] at h2
  exact absurd (mem_creditor_ids h2) (not_lt.mpr (le_of_lt (mem_debtor_ids h1)))

/-- Evaluation helper: a whole number of cents rounds to itself. -/
theorem round2_whole (z : ℤ) : round2 ((z : ℚ) / 100) = (z : ℚ) / 100 := by
  have h : 100 * ((z : ℚ) / 100) = (z : ℚ) := by ring
  unfold round2
  rw [h, Int.floor_intCast]
  norm_num

/-- Evaluation helper: unfold the absolute value into a sign test. -/
theorem abs_eval (q : ℚ) : |q| = if q < 0 then -q else q := by
  rcases lt_or_ge q 0 with h | h
  · rw [abs_of_neg h, if_pos h]
  · rw [abs_of_nonneg h, if_neg (not_lt.mpr h)]

theorem settlement_count_bound_witness :
    debtorsOf [1,2,3] [(1,90),(2,30)]
      [(1,30),(2,30),(3,30),(1,10),(2,10),(3,10)] ≠ [] ∧
    creditorsOf [1,2,3] [(1,90),(2,30)]
      [(1,30),(2,30),(3,30),(1,10),(2,10),(3,10)] ≠ [] ∧
    (calcSettlements [1,2,3] [(1,90),(2,30)]
      [(1,30),(2,30),(3,30),(1,10),(2,10),(3,10)]).length ≤
      (debtorsOf [1,2,3] [(1,90),(2,30)]
        [(1,30),(2,30),(3,30),(1,10),(2,10),(3,10)]).length +
      (creditorsOf [1,2,3] [(1,90),(2,30)]
        [(1,30),(2,30),(3,30),(1,10),(2,10),(3,10)]).length - 1 := by
  have e1 : round2 ((50:ℚ)) = 50 := by
    have := round2_whole 5000; norm_num at this; exact this
  have e2 : round2 ((-10:ℚ)) = -10 := by
    have := round2_whole (-1000); norm_num at this; exact this
  have e3 : round2 ((-40:ℚ)) = -40 := by
    have := round2_whole (-4000); norm_num at this; exact this
  have hdev : debtorsOf [1,2,3] [(1,90),(2,30)]
      [(1,30),(2,30),(3,30),(1,10),(2,10),(3,10)] = [(2,-10),(3,-40)] := by
    norm_num [debtorsOf, entriesOf, netOf, userPaid, userOwes, e1, e2, e3]
  have hcev : creditorsOf [1,2,3] [(1,90),(2,30)]
      [(1,30),(2,30),(3,30),(1,10),(2,10),(3,10)] = [(1,50)] := by
    norm_num [creditorsOf, entriesOf, netOf, userPaid, userOwes, e1, e2, e3]
  have hd : debtorsOf [1,2,3] [(1,90),(2,30)]
      [(1,30),(2,30),(3,30),(1,10),(2,10),(3,10)] ≠ [] := by
    rw [hdev]; simp
  have hc : creditorsOf [1,2,3] [(1,90),(2,30)]
      [(1,30),(2,30),(3,30),(1,10),(2,10),(3,10)] ≠ [] := by
    rw [hcev]; simp
  exact ⟨hd, hc, (settlement_count_bound [1,2,3] [(1,90),(2,30)]
    [(1,30),(2,30),(3,30),(1,10),(2,10),(3,10)]).2 hd hc⟩

theorem settlements_settle_group_witness :
    ([1,2,3] : List Nat).Nodup ∧
    |(([1,2,3] : List Nat).map (fun u => round2 (netOf [(1,90),(2,30)]
      [(1,30),(2,30),(3,30),(1,10),(2,10),(3,10)] u))).sum| ≤ 1/100 ∧
    ∀ u ∈ ([1,2,3] : List Nat),
      |round2 (netOf [(1,90),(2,30)]
          [(1,30),(2,30),(3,30),(1,10),(2,10),(3,10)] u)
        + paidTotal u (calcSettlements [1,2,3] [(1,90),(2,30)]
            [(1,30),(2,30),(3,30),(1,10),(2,10),(3,10)])
        - recvTotal u (calcSettlements [1,2,3] [(1,90),(2,30)]
            [(1,30),(2,30),(3,30),(1,10),(2,10),(3,10)])| ≤ 1/100 := by
  have hnd : ([1,2,3] : List Nat).Nodup := by decide
  have hsum : |(([1,2,3] : List Nat).map (fun u => round2 (netOf [(1,90),(2,30)]
      [(1,30),(2,30),(3,30),(1,10),(2,10),(3,10)] u))).sum| ≤ 1/100 := by
    have e1 : round2 ((50:ℚ)) = 50 := by
      have := round2_whole 5000; norm_num at this; exact this
    have e2 : round2 ((-10:ℚ)) = -10 := by
      have := round2_whole (-1000); norm_num at this; exact this
    have e3 : round2 ((-40:ℚ)) = -40 := by
      have := round2_whole (-4000); norm_num at this; exact this
    norm_num [netOf, userPaid, userOwes, e1, e2, e3, abs_eval]
  exact ⟨hnd, hsum, settlements_settle_group [1,2,3] [(1,90),(2,30)]
    [(1,30),(2,30),(3,30),(1,10),(2,10),(3,10)] hnd hsum⟩

theorem settlement_roles_exclusive_witness :
    (∃ t ∈ calcSettlements [1,2,3] [(1,90),(2,30)]
      [(1,30),(2,30),(3,30),(1,10),(2,10),(3,10)], t.1 = 2) ∧
    (∀ t ∈ calcSettlements [1,2,3] [(1,90),(2,30)]
      [(1,30),(2,30),(3,30),(1,10),(2,10),(3,10)], t.2.1 ≠ 2) := by
  have e1 : round2 ((50:ℚ)) = 50 := by
    have := round2_whole 5000; norm_num at this; exact this
  have e2 : round2 ((-10:ℚ)) = -10 := by
    have := round2_whole (-1000); norm_num at this; exact this
  have e3 : round2 ((-40:ℚ)) = -40 := by
    have := round2_whole (-4000); norm_num at this; exact this
  have heval : calcSettlements [1,2,3] [(1,90),(2,30)]
      [(1,30),(2,30),(3,30),(1,10),(2,10),(3,10)] = [(2,1,10),(3,1,40)] := by
    norm_num [calcSettlements, debtorsOf, creditorsOf, entriesOf, netOf,
      userPaid, userOwes, e1, e2, e3, settleLoop, min_def, abs_eval]
  have hpay : ∃ t ∈ calcSettlements [1,2,3] [(1,90),(2,30)]
      [(1,30),(2,30),(3,30),(1,10),(2,10),(3,10)], t.1 = 2 := by
    rw [heval]
    exact ⟨(2,1,10), by simp, rfl⟩
  exact ⟨hpay, settlement_roles_exclusive [1,2,3] [(1,90),(2,30)]
    [(1,30),(2,30),(3,30),(1,10),(2,10),(3,10)] 2 hpay⟩

/-- C8: the balance-and-settlement computation is deterministic; two
invocations on the same snapshot yield identical balance lists and identical
settlement lists, ordering included.  The engine is a pure function of the
snapshot (the source reads a fixed query snapshot and uses no randomness,
time, or external state). -/
theorem engine_deterministic (m1 m2 : List Nat) (e1 e2 s1 s2 : List (Nat × ℚ))
    (hm : m1 = m2) (he : e1 = e2) (hs : s1 = s2) :
    calcBalances m1 e1 s1 = calcBalances m2 e2 s2 ∧
    calcSettlements m1 e1 s1 = calcSettlements m2 e2 s2 := by
  subst hm; subst he; subst hs
  exact ⟨rfl, rfl⟩

theorem engine_deterministic_witness :
    ([1,2] : List Nat) = [1,2] ∧
    calcBalances [1,2] [(1,10)] [(2,10)] = calcBalances [1,2] [(1,10)] [(2,10)] ∧
    calcSettlements [1,2] [(1,10)] [(2,10)]
      = calcSettlements [1,2] [(1,10)] [(2,10)] := by
  refine ⟨rfl, ?_, ?_⟩
  · exact (engine_deterministic [1,2] [1,2] [(1,10)] [(1,10)] [(2,10)] [(2,10)]
      rfl rfl rfl).1
  · exact (engine_deterministic [1,2] [1,2] [(1,10)] [(1,10)] [(2,10)] [(2,10)]
      rfl rfl rfl).2

/-- C10: the equal-split divisor can never be zero.  Passing the
paid-by-in-group check of lines 299-304 guarantees the group-member query of
line 327 returns a non-empty list, so `amount / len(members)` at line 328
never divides by zero. -/
theorem equal_split_divisor_nonzero (db : DB) (gid uid : Nat)
    (h : paidByInGroup db gid uid = true) :
    membersOf db gid ≠ [] ∧ ((membersOf db gid).length : ℚ) ≠ 0 := by
  have hmem : (gid, uid) ∈ db.memberships := by
    have h2 := (Bool.and_eq_true _ _).mp h
    simpa using h2.2
  have hin : (gid, uid) ∈ membersOf db gid :=
    List.mem_filter.mpr ⟨hmem, by simp⟩
  have hne : membersOf db gid ≠ [] := List.ne_nil_of_mem hin
  refine ⟨hne, ?_⟩
  have hlen : (membersOf db gid).length ≠ 0 :=
    fun hz => hne (List.eq_nil_of_length_eq_zero hz)
  exact_mod_cast hlen

theorem equal_split_divisor_nonzero_witness :
    paidByInGroup ⟨[1,2], [1], [(1,1),(1,2)], [], []⟩ 1 1 = true ∧
    membersOf ⟨[1,2], [1], [(1,1),(1,2)], [], []⟩ 1 ≠ [] ∧
    ((membersOf ⟨[1,2], [1], [(1,1),(1,2)], [], []⟩ 1).length : ℚ) ≠ 0 := by
  have hp : paidByInGroup ⟨[1,2], [1], [(1,1),(1,2)], [], []⟩ 1 1 = true := by
    decide
  exact ⟨hp, equal_split_divisor_nonzero ⟨[1,2], [1], [(1,1),(1,2)], [], []⟩ 1 1 hp⟩

/-- C9 counterexample: a snapshot whose aggregated rounded nets sum to 100
(far beyond the 0.01 tolerance: one member paid 100 with no shares
recorded).  The engine raises nothing: it returns the balance list normally,
with no `DataIntegrityError` or any other failure path in the source
(lines 398-490 contain no integrity check and no raise). -/
theorem integrity_error_counterexample :
    |(([1] : List Nat).map (fun u => round2 (netOf [(1,100)] [] u))).sum| > 1/100 ∧
    calcBalances [1] [(1,100)] [] = [⟨1, [], [], 100⟩] := by
  have e1 : round2 ((100:ℚ)) = 100 := by
    have := round2_whole 10000; norm_num at this; exact this
  constructor
  · norm_num [netOf, userPaid, userOwes, e1, abs_eval]
  · norm_num [calcBalances, calcSettlements, debtorsOf, creditorsOf, entriesOf,
      netOf, userPaid, userOwes, e1, settleLoop, paidTotal, recvTotal]

/-- C9 amended: the engine performs no integrity check at all.  For every
snapshot, including those whose aggregated net balances do not sum to
approximately zero, the computation returns normally, emitting exactly one
balance entry per group member (in member order); there is no
`DataIntegrityError` or any failing path. -/
theorem engine_has_no_integrity_check (members : List Nat)
    (es sh : List (Nat × ℚ)) :
    (calcBalances members es sh).length = members.length ∧
    (calcBalances members es sh).map (fun b => b.userId) = members := by
  constructor
  · simp [calcBalances]
  · simp [calcBalances, List.map_map, Function.comp_def]

/-- C4: a percentage-policy expense request whose supplied percentages do
not sum to 100 within the 0.01 tolerance always fails with an error and
leaves the database untouched: in particular no split row of that expense
is ever written (the check at lines 307-310 precedes every `db.add`). -/
theorem pct_sum_violation_rejected (db : DB) (gid : Nat) (req : ExpenseReq)
    (hk : req.splitKind = .percentage)
    (htol : |totalPercentage req.splits - 100| > 1/100) :
    (addExpense db gid req).2 = db ∧
    ∃ e, (addExpense db gid req).1 = .error e := by
  unfold addExpense
  by_cases h1 : ¬ db.groups.contains gid = true
  · rw [if_pos h1]
    exact ⟨rfl, _, rfl⟩
  · rw [if_neg h1]
    by_cases h2 : ¬ paidByInGroup db gid req.paidBy = true
    · rw [if_pos h2]
      exact ⟨rfl, _, rfl⟩
    · rw [if_neg h2, if_pos (show req.splitKind = SplitKind.percentage
        ∧ |totalPercentage req.splits - 100| > 1/100 from ⟨hk, htol⟩)]
      exact ⟨rfl, _, rfl⟩

theorem pct_sum_violation_rejected_witness :
    (⟨0, 50, 1, .percentage, [⟨2, some 60⟩, ⟨3, some 30⟩]⟩ : ExpenseReq).splitKind
      = .percentage ∧
    |totalPercentage [⟨2, some 60⟩, ⟨3, some 30⟩] - 100| > 1/100 ∧
    ((addExpense ⟨[1,2,3], [1], [(1,1),(1,2),(1,3)], [], []⟩ 1
        ⟨0, 50, 1, .percentage, [⟨2, some 60⟩, ⟨3, some 30⟩]⟩).2
      = ⟨[1,2,3], [1], [(1,1),(1,2),(1,3)], [], []⟩ ∧
    ∃ e, (addExpense ⟨[1,2,3], [1], [(1,1),(1,2),(1,3)], [], []⟩ 1
        ⟨0, 50, 1, .percentage, [⟨2, some 60⟩, ⟨3, some 30⟩]⟩).1 = .error e) := by
  have htol : |totalPercentage [⟨2, some 60⟩, ⟨3, some 30⟩] - 100| > 1/100 := by
    norm_num [totalPercentage, abs_eval]
  exact ⟨rfl, htol,
    pct_sum_violation_rejected ⟨[1,2,3], [1], [(1,1),(1,2),(1,3)], [], []⟩ 1
      ⟨0, 50, 1, .percentage, [⟨2, some 60⟩, ⟨3, some 30⟩]⟩ rfl htol⟩

theorem equal_ne_percentage : SplitKind.equal ≠ SplitKind.percentage := by decide

/-- C2 counterexample: group of three members, amount 1, Equal policy.  The
code stores the raw quotient `1/3` as every share (line 328 divides, never
rounds), while the claimed value `round(1/3, 2)` is `0.33`: a stored share
differs from the claimed rounded share. -/
theorem equal_split_rounding_counterexample :
    ∃ r ∈ (addExpense ⟨[1,2,3], [1], [(1,1),(1,2),(1,3)], [], []⟩ 1
        ⟨0, 1, 1, .equal, []⟩).2.splitRows,
      r.amount ≠ round2 ((⟨0, 1, 1, .equal, []⟩ : ExpenseReq).amount
        / ((membersOf ⟨[1,2,3], [1], [(1,1),(1,2),(1,3)], [], []⟩ 1).length : ℚ)) := by
  have hrows : (addExpense ⟨[1,2,3], [1], [(1,1),(1,2),(1,3)], [], []⟩ 1
      ⟨0, 1, 1, .equal, []⟩).2.splitRows
      = [⟨0, 1, 1/3, none⟩, ⟨0, 2, 1/3, none⟩, ⟨0, 3, 1/3, none⟩] := by
    norm_num [addExpense, paidByInGroup, membersOf, equal_ne_percentage]
  rw [hrows]
  refine ⟨⟨0, 1, 1/3, none⟩, by simp, ?_⟩
  have hmem : membersOf ⟨[1,2,3], [1], [(1,1),(1,2),(1,3)], [], []⟩ 1
      = [(1,1),(1,2),(1,3)] := by
    norm_num [membersOf]
  rw [hmem]
  norm_num [round2]

/-- C2 amended: for an expense created with the Equal policy the code
generates one share per group member whose amount is exactly
`amount / member_count`, the raw quotient; no rounding to two decimal
places is applied to the stored share. -/
theorem equal_split_shares_exact (db : DB) (gid : Nat) (req : ExpenseReq)
    (hg : db.groups.contains gid = true)
    (hp : paidByInGroup db gid req.paidBy = true)
    (hk : req.splitKind = .equal) :
    (addExpense db gid req).2.splitRows
      = db.splitRows ++ (membersOf db gid).map (fun m =>
          ⟨db.expenses.length, m.2,
            req.amount / ((membersOf db gid).length : ℚ), none⟩) ∧
    ∀ r ∈ (addExpense db gid req).2.splitRows.drop db.splitRows.length,
      r.amount = req.amount / ((membersOf db gid).length : ℚ) := by
  obtain ⟨dsc, amt, pb, k, sp⟩ := req
  simp only at hk hp ⊢
  subst hk
  have hmain : (addExpense db gid ⟨dsc, amt, pb, .equal, sp⟩).2.splitRows
      = db.splitRows ++ (membersOf db gid).map (fun m =>
          (⟨db.expenses.length, m.2,
            amt / ((membersOf db gid).length : ℚ), none⟩ : SplitRow)) := by
    unfold addExpense
    rw [if_neg (not_not_intro hg), if_neg (not_not_intro hp),
        if_neg (by rintro ⟨h, _⟩; exact equal_ne_percentage h)]
  refine ⟨hmain, ?_⟩
  intro r hr
  rw [hmain, List.drop_left] at hr
  obtain ⟨m, hm, rfl⟩ := List.mem_map.mp hr
  rfl

theorem equal_split_shares_exact_witness :
    (⟨[1,2,3], [1], [(1,1),(1,2),(1,3)], [], []⟩ : DB).groups.contains 1 = true ∧
    paidByInGroup ⟨[1,2,3], [1], [(1,1),(1,2),(1,3)], [], []⟩ 1
      (⟨0, 1, 1, .equal, []⟩ : ExpenseReq).paidBy = true ∧
    (⟨0, 1, 1, .equal, []⟩ : ExpenseReq).splitKind = .equal ∧
    ((addExpense ⟨[1,2,3], [1], [(1,1),(1,2),(1,3)], [], []⟩ 1
        ⟨0, 1, 1, .equal, []⟩).2.splitRows
      = (⟨[1,2,3], [1], [(1,1),(1,2),(1,3)], [], []⟩ : DB).splitRows
        ++ (membersOf ⟨[1,2,3], [1], [(1,1),(1,2),(1,3)], [], []⟩ 1).map (fun m =>
          ⟨(⟨[1,2,3], [1], [(1,1),(1,2),(1,3)], [], []⟩ : DB).expenses.length, m.2,
            (⟨0, 1, 1, .equal, []⟩ : ExpenseReq).amount
              / ((membersOf ⟨[1,2,3], [1], [(1,1),(1,2),(1,3)], [], []⟩ 1).length : ℚ),
            none⟩) ∧
    ∀ r ∈ ((addExpense ⟨[1,2,3], [1], [(1,1),(1,2),(1,3)], [], []⟩ 1
        ⟨0, 1, 1, .equal, []⟩).2.splitRows.drop
          (⟨[1,2,3], [1], [(1,1),(1,2),(1,3)], [], []⟩ : DB).splitRows.length),
      r.amount = (⟨0, 1, 1, .equal, []⟩ : ExpenseReq).amount
        / ((membersOf ⟨[1,2,3], [1], [(1,1),(1,2),(1,3)], [], []⟩ 1).length : ℚ)) :=
  ⟨by decide, by decide, rfl,
    equal_split_shares_exact ⟨[1,2,3], [1], [(1,1),(1,2),(1,3)], [], []⟩ 1
      ⟨0, 1, 1, .equal, []⟩ (by decide) (by decide) rfl⟩

/-- C3 failing input: a Percentage expense listing a split with a missing
percentage while the present percentages sum to 100.  The line-308
validation treats the missing entry as 0, so the total passes; the Expense
row is committed (line 321); split creation then evaluates
`split_data.percentage / 100` with `None` and raises `TypeError`.  The call
therefore fails with a non-validation error and the state has changed: the
expense is persisted with no shares, contradicting the claimed
`InvalidSplitError` with atomic rejection. -/
theorem missing_percentage_typeerror :
    (addExpense ⟨[1,2,3], [1], [(1,1),(1,2),(1,3)], [], []⟩ 1
        ⟨0, 50, 1, .percentage, [⟨2, some 100⟩, ⟨3, none⟩]⟩).1
      = .error .typeError ∧
    (addExpense ⟨[1,2,3], [1], [(1,1),(1,2),(1,3)], [], []⟩ 1
        ⟨0, 50, 1, .percentage, [⟨2, some 100⟩, ⟨3, none⟩]⟩).2
      = ⟨[1,2,3], [1], [(1,1),(1,2),(1,3)],
          [⟨0, 50, 1, 1, .percentage⟩], []⟩ := by
  constructor <;>
    norm_num [addExpense, paidByInGroup, totalPercentage, mkPctRows, abs_eval]

/-! Aggregation lemmas for the zero-sum analysis. -/

theorem sum_map_sub (l : List Nat) (f g : Nat → ℚ) :
    (l.map (fun x => f x - g x)).sum = (l.map f).sum - (l.map g).sum := by
  induction l with
  | nil => simp
  | cons x l ih =>
    simp only [List.map_cons, List.sum_cons, ih]
    ring

theorem sum_map_ite_zero (ms : List Nat) (a : Nat) (x : ℚ) (ha : a ∉ ms) :
    (ms.map (fun u => if a = u then x else 0)).sum = 0 := by
  induction ms with
  | nil => simp
  | cons m ms ih =>
    simp only [List.map_cons, List.sum_cons]
    rw [if_neg (fun h => ha (by rw [h]; exact List.mem_cons_self _ _)),
      ih (fun h => ha (List.mem_cons_of_mem _ h))]
    ring

theorem sum_map_ite (ms : List Nat) (hnd : ms.Nodup) (a : Nat) (x : ℚ)
    (ha : a ∈ ms) :
    (ms.map (fun u => if a = u then x else 0)).sum = x := by
  induction ms with
  | nil => cases ha
  | cons m ms ih =>
    obtain ⟨hm, hnd2⟩ := List.nodup_cons.mp hnd
    simp only [List.map_cons, List.sum_cons]
    rcases List.mem_cons.mp ha with rfl | ha2
    · rw [if_pos rfl, sum_map_ite_zero ms a x hm]
      ring
    · have hne : a ≠ m := fun h => hm (h ▸ ha2)
      rw [if_neg hne, ih hnd2 ha2]
      ring

/-- Summing per-member filtered totals over a duplicate-free member list
that covers every row recovers the total of all rows. -/
theorem sum_filtered_by_members (ms : List Nat) (hnd : ms.Nodup)
    (l : List (Nat × ℚ)) (hl : ∀ p ∈ l, p.1 ∈ ms) :
    (ms.map (fun u => ((l.filter (fun p => p.1 == u)).map Prod.snd).sum)).sum
      = amtSum l := by
  induction l with
  | nil =>
    simp [amtSum_nil]
  | cons p l ih =>
    have hstep : ∀ u : Nat,
        (((p :: l).filter (fun q => q.1 == u)).map Prod.snd).sum
          = (if p.1 = u then p.2 else 0)
            + ((l.filter (fun q => q.1 == u)).map Prod.snd).sum := by
      intro u
      by_cases h : p.1 = u
      · rw [List.filter_cons_of_pos (by simpa using h), if_pos h]
        simp
      · rw [List.filter_cons_of_neg (by simpa using h), if_neg h]
        simp
    simp only [hstep]
    calc (ms.map fun u => (if p.1 = u then p.2 else 0)
            + ((l.filter (fun q => q.1 == u)).map Prod.snd).sum).sum
        = (ms.map fun u => if p.1 = u then p.2 else 0).sum
          + (ms.map fun u =>
              ((l.filter (fun q => q.1 == u)).map Prod.snd).sum).sum :=
          List.sum_map_add
      _ = p.2 + amtSum l := by
          rw [sum_map_ite ms hnd p.1 p.2 (hl p (List.mem_cons_self _ _)),
            ih (fun q hq => hl q (List.mem_cons_of_mem _ hq))]
      _ = amtSum (p :: l) := (amtSum_cons p l).symm

theorem userPaid_members_total (ms : List Nat) (hnd : ms.Nodup)
    (facts : List ExpenseFact) (hpay : ∀ e ∈ facts, e.paidBy ∈ ms) :
    (ms.map (fun u => userPaid (expensePairs facts) u)).sum
      = (facts.map (fun e => e.amount)).sum := by
  have h1 := sum_filtered_by_members ms hnd (expensePairs facts)
    (by
      intro p hp
      obtain ⟨e, he, rfl⟩ := List.mem_map.mp hp
      exact hpay e he)
  calc (ms.map (fun u => userPaid (expensePairs facts) u)).sum
      = amtSum (expensePairs facts) := h1
    _ = (facts.map (fun e => e.amount)).sum := by
        simp [amtSum, expensePairs, List.map_map, Function.comp_def]

theorem userOwes_members_total (ms : List Nat) (hnd : ms.Nodup)
    (facts : List ExpenseFact)
    (hshare : ∀ e ∈ facts, ∀ s ∈ e.shares, s.1 ∈ ms) :
    (ms.map (fun u => userOwes (sharePairs facts) u)).sum
      = (facts.map shareSum).sum := by
  have h1 := sum_filtered_by_members ms hnd (sharePairs facts)
    (by
      intro p hp
      rw [sharePairs, List.mem_flatten] at hp
      obtain ⟨l, hl, hpl⟩ := hp
      obtain ⟨e, he, rfl⟩ := List.mem_map.mp hl
      exact hshare e he p hpl)
  calc (ms.map (fun u => userOwes (sharePairs facts) u)).sum
      = amtSum (sharePairs facts) := h1
    _ = (facts.map shareSum).sum := by
        rw [amtSum, sharePairs, List.map_flatten, List.sum_flatten,
          List.map_map, List.map_map]
        rfl

theorem abs_share_discrepancy_sum (facts : List ExpenseFact)
    (h : ∀ e ∈ facts, |e.amount - shareSum e| ≤ 1/100) :
    |(facts.map (fun e => e.amount)).sum - (facts.map shareSum).sum|
      ≤ (facts.length : ℚ)/100 := by
  induction facts with
  | nil => simp
  | cons e fs ih =>
    simp only [List.map_cons, List.sum_cons, List.length_cons]
    have h1 := h e (List.mem_cons_self _ _)
    have h2 := ih (fun x hx => h x (List.mem_cons_of_mem _ hx))
    have heq : e.amount + (fs.map (fun e => e.amount)).sum
        - (shareSum e + (fs.map shareSum).sum)
        = (e.amount - shareSum e)
          + ((fs.map (fun e => e.amount)).sum - (fs.map shareSum).sum) := by
      ring
    rw [heq]
    have h3 := abs_add (e.amount - shareSum e)
      ((fs.map (fun e => e.amount)).sum - (fs.map shareSum).sum)
    have h4 : ((fs.length + 1 : ℕ) : ℚ)/100 = (fs.length : ℚ)/100 + 1/100 := by
      push_cast
      ring
    rw [h4]
    linarith

theorem abs_round2_map_sum (ms : List Nat) (f : Nat → ℚ) :
    |(ms.map (fun u => round2 (f u))).sum - (ms.map f).sum|
      ≤ (ms.length : ℚ)/200 := by
  induction ms with
  | nil => simp
  | cons m ms ih =>
    simp only [List.map_cons, List.sum_cons, List.length_cons]
    have h1 := abs_round2_sub_le (f m)
    have heq : round2 (f m) + (ms.map (fun u => round2 (f u))).sum
        - (f m + (ms.map f).sum)
        = (round2 (f m) - f m)
          + ((ms.map (fun u => round2 (f u))).sum - (ms.map f).sum) := by
      ring
    rw [heq]
    have h3 := abs_add (round2 (f m) - f m)
      ((ms.map (fun u => round2 (f u))).sum - (ms.map f).sum)
    have h4 : ((ms.length + 1 : ℕ) : ℚ)/200 = (ms.length : ℚ)/200 + 1/200 := by
      push_cast
      ring
    rw [h4]
    linarith

/-- C1 counterexample: member set `[1]` and two expenses, each paid by
member 1 with amount 10 and a single share of 9.991 for member 1.  Every
expense meets the per-expense 0.01 share tolerance (each discrepancy is
0.009), yet the produced net balances sum to `round(0.018, 2) = 0.02`,
outside the claimed 0.01 tolerance: the per-expense errors accumulate. -/
theorem zero_sum_counterexample :
    (∀ e ∈ [ExpenseFact.mk 1 10 [(1, 9991/1000)], ExpenseFact.mk 1 10 [(1, 9991/1000)]],
        e.paidBy ∈ ([1] : List Nat) ∧ (∀ s ∈ e.shares, s.1 ∈ ([1] : List Nat)) ∧
        |e.amount - shareSum e| ≤ 1/100) ∧
    |(([1] : List Nat).map (fun u => round2 (netOf
        (expensePairs [⟨1, 10, [(1, 9991/1000)]⟩, ⟨1, 10, [(1, 9991/1000)]⟩])
        (sharePairs [⟨1, 10, [(1, 9991/1000)]⟩, ⟨1, 10, [(1, 9991/1000)]⟩]) u))).sum|
      > 1/100 := by
  constructor
  · intro e he
    rcases List.mem_cons.mp he with rfl | he2
    · refine ⟨by simp, by simp, ?_⟩
      norm_num [shareSum, amtSum, abs_eval]
    · rcases List.mem_cons.mp he2 with rfl | he3
      · refine ⟨by simp, by simp, ?_⟩
        norm_num [shareSum, amtSum, abs_eval]
      · cases he3
  · have hnet : netOf
        (expensePairs [⟨1, 10, [(1, 9991/1000)]⟩, ⟨1, 10, [(1, 9991/1000)]⟩])
        (sharePairs [⟨1, 10, [(1, 9991/1000)]⟩, ⟨1, 10, [(1, 9991/1000)]⟩]) 1
        = 9/500 := by
      norm_num [netOf, userPaid, userOwes, expensePairs, sharePairs]
    have hr : round2 (9/500) = 1/50 := by
      norm_num [round2]
    simp only [List.map_cons, List.map_nil, List.sum_cons, List.sum_nil, hnet, hr]
    norm_num [abs_eval]

/-- C1 amended: over a duplicate-free member set covering all payers and
share holders, if every expense's shares sum to its amount within 0.01 then
the produced (rounded) net balances sum to zero within
`0.01 * (number of expenses) + 0.005 * (number of members)`: the
per-expense tolerance accumulates once per expense (plus half-cent output
rounding per member), and only the accumulated bound — not the claimed
flat 0.01 — holds. -/
theorem zero_sum_amended (ms : List Nat) (facts : List ExpenseFact)
    (hnd : ms.Nodup)
    (hpay : ∀ e ∈ facts, e.paidBy ∈ ms)
    (hshare : ∀ e ∈ facts, ∀ s ∈ e.shares, s.1 ∈ ms)
    (htol : ∀ e ∈ facts, |e.amount - shareSum e| ≤ 1/100) :
    |(ms.map (fun u => round2 (netOf (expensePairs facts) (sharePairs facts) u))).sum|
      ≤ (facts.length : ℚ)/100 + (ms.length : ℚ)/200 := by
  have hnet : (ms.map (fun u => netOf (expensePairs facts) (sharePairs facts) u)).sum
      = (facts.map (fun e => e.amount)).sum - (facts.map shareSum).sum := by
    simp only [netOf]
    rw [sum_map_sub ms (fun u => userPaid (expensePairs facts) u)
        (fun u => userOwes (sharePairs facts) u),
      userPaid_members_total ms hnd facts hpay,
      userOwes_members_total ms hnd facts hshare]
  have h1 : |(ms.map (fun u => netOf (expensePairs facts) (sharePairs facts) u)).sum|
      ≤ (facts.length : ℚ)/100 := by
    rw [hnet]
    exact abs_share_discrepancy_sum facts htol
  have h2 := abs_round2_map_sum ms
    (fun u => netOf (expensePairs facts) (sharePairs facts) u)
  have heq : (ms.map (fun u =>
        round2 (netOf (expensePairs facts) (sharePairs facts) u))).sum
      = ((ms.map (fun u =>
            round2 (netOf (expensePairs facts) (sharePairs facts) u))).sum
          - (ms.map (fun u => netOf (expensePairs facts) (sharePairs facts) u)).sum)
        + (ms.map (fun u => netOf (expensePairs facts) (sharePairs facts) u)).sum := by
    ring
  rw [heq]
  have h3 := abs_add
    ((ms.map (fun u =>
        round2 (netOf (expensePairs facts) (sharePairs facts) u))).sum
      - (ms.map (fun u => netOf (expensePairs facts) (sharePairs facts) u)).sum)
    ((ms.map (fun u => netOf (expensePairs facts) (sharePairs facts) u)).sum)
  linarith

theorem zero_sum_amended_witness :
    ([1,2,3] : List Nat).Nodup ∧
    (∀ e ∈ [ExpenseFact.mk 1 90 [(1,30),(2,30),(3,30)]], e.paidBy ∈ ([1,2,3] : List Nat)) ∧
    (∀ e ∈ [ExpenseFact.mk 1 90 [(1,30),(2,30),(3,30)]],
      ∀ s ∈ e.shares, s.1 ∈ ([1,2,3] : List Nat)) ∧
    (∀ e ∈ [ExpenseFact.mk 1 90 [(1,30),(2,30),(3,30)]],
      |e.amount - shareSum e| ≤ 1/100) ∧
    |(([1,2,3] : List Nat).map (fun u => round2 (netOf
        (expensePairs [⟨1, 90, [(1,30),(2,30),(3,30)]⟩])
        (sharePairs [⟨1, 90, [(1,30),(2,30),(3,30)]⟩]) u))).sum|
      ≤ (([ExpenseFact.mk 1 90 [(1,30),(2,30),(3,30)]].length : ℚ))/100
        + ((([1,2,3] : List Nat).length : ℚ))/200 := by
  have hnd : ([1,2,3] : List Nat).Nodup := by decide
  have hpay : ∀ e ∈ [ExpenseFact.mk 1 90 [(1,30),(2,30),(3,30)]],
      e.paidBy ∈ ([1,2,3] : List Nat) := by
    intro e he
    rcases List.mem_cons.mp he with rfl | he2
    · simp
    · cases he2
  have hshare : ∀ e ∈ [ExpenseFact.mk 1 90 [(1,30),(2,30),(3,30)]],
      ∀ s ∈ e.shares, s.1 ∈ ([1,2,3] : List Nat) := by
    intro e he
    rcases List.mem_cons.mp he with rfl | he2
    · intro s hs
      rcases List.mem_cons.mp hs with rfl | hs2
      · simp
      · rcases List.mem_cons.mp hs2 with rfl | hs3
        · simp
        · rcases List.mem_cons.mp hs3 with rfl | hs4
          · simp
          · cases hs4
    · cases he2
  have htol : ∀ e ∈ [ExpenseFact.mk 1 90 [(1,30),(2,30),(3,30)]],
      |e.amount - shareSum e| ≤ 1/100 := by
    intro e he
    rcases List.mem_cons.mp he with rfl | he2
    · norm_num [shareSum, amtSum, abs_eval]
    · cases he2
  exact ⟨hnd, hpay, hshare, htol,
    zero_sum_amended [1,2,3] [⟨1, 90, [(1,30),(2,30),(3,30)]⟩] hnd hpay hshare htol⟩
